import Mathlib

/-!
Shallow embedding of `blockchain_core.py` (toy single-node hash chain).

The Python code hashes a concatenated content string with SHA-256; here the
hash function is an explicit parameter `H : String → String`, and all chain
operations (`add_block`, `is_chain_valid`, `search_block`, `tamper_block`)
are translated field for field from the source.  Mining is the search for
the least nonce whose hash meets the difficulty target, expressed with
`Nat.find` under an explicit termination hypothesis (`Mineable`), since the
Python loop is unbounded.
-/

/-- The hash function of the program (`hashlib.sha256(...).hexdigest()` in the
source), kept abstract: a map from the block content string to digest text. -/
abbrev HashFun : Type := String → String

/-- The content string hashed by `Block.calculate_hash`:
`f"{index}{timestamp}{data}{previous_hash}{nonce}"`. -/
def hashContent (index : Nat) (timestamp data previousHash : String) (nonce : Nat) : String :=
  toString index ++ timestamp ++ data ++ previousHash ++ toString nonce

/-- `BlockHeader`: index, timestamp, previous_hash, nonce, difficulty, hash.
In the source `hash` is `None` until mining finishes; every block we build is
mined on construction, so `hash` is always present. -/
structure BlockHeader where
  index : Nat
  timestamp : String
  previous_hash : String
  nonce : Nat
  difficulty : Nat
  hash : String
deriving DecidableEq, Repr

/-- A `Block`: a header plus opaque payload `data`. -/
structure Block where
  header : BlockHeader
  data : String
deriving DecidableEq, Repr

def defaultBlock : Block := ⟨⟨0, "", "", 0, 0, ""⟩, ""⟩

instance : Inhabited Block := ⟨defaultBlock⟩

/-- `Block.calculate_hash`: hash of the block's current stored fields. -/
def calculate_hash (H : HashFun) (b : Block) : String :=
  H (hashContent b.header.index b.header.timestamp b.data b.header.previous_hash b.header.nonce)

/-- `hash_attempt.startswith('0' * difficulty)`: the digest text begins with
`d` zero characters. -/
def hashMeetsDifficulty (h : String) (d : Nat) : Bool :=
  (List.replicate d '0').isPrefixOf h.toList

/-- The mining predicate at nonce `n`: hashing the draft fields with nonce `n`
meets the difficulty target. -/
def minePredB (H : HashFun) (index : Nat) (timestamp data previousHash : String)
    (d : Nat) (n : Nat) : Bool :=
  hashMeetsDifficulty (H (hashContent index timestamp data previousHash n)) d

/-- Termination of the unbounded `while True` mining loop: some nonce wins. -/
def Mineable (H : HashFun) (index : Nat) (timestamp data previousHash : String) (d : Nat) : Prop :=
  ∃ n, minePredB H index timestamp data previousHash d n = true

/-- `Block.mine_block`: starting from nonce 0 and incrementing, the loop stops
at the least winning nonce; it returns that nonce together with the hash
computed at it. -/
def mine_block (H : HashFun) (index : Nat) (timestamp data previousHash : String) (d : Nat)
    (h : Mineable H index timestamp data previousHash d) : Nat × String :=
  let n := Nat.find h
  (n, H (hashContent index timestamp data previousHash n))

/-- `Block.__init__`: build the header with the given fields, mine, and store
the winning nonce and hash.  The creation timestamp is a parameter (the
source reads the wall clock). -/
def Block.make (H : HashFun) (index : Nat) (timestamp data previousHash : String) (d : Nat)
    (h : Mineable H index timestamp data previousHash d) : Block :=
  let mined := mine_block H index timestamp data previousHash d h
  { header :=
      { index := index
        timestamp := timestamp
        previous_hash := previousHash
        nonce := mined.1
        difficulty := d
        hash := mined.2 }
    data := data }

/-- `Blockchain`: the chain difficulty and the ordered block list. -/
structure Blockchain where
  difficulty : Nat
  chain : List Block
deriving DecidableEq, Repr

/-- `Blockchain.create_genesis_block`: `Block(0, "Genesis Block", "0", difficulty)`. -/
def create_genesis_block (H : HashFun) (d : Nat) (timestamp : String)
    (h : Mineable H 0 timestamp "Genesis Block" "0" d) : Block :=
  Block.make H 0 timestamp "Genesis Block" "0" d h

/-- `Blockchain.__init__`: store the difficulty and start the chain with the
genesis block. -/
def Blockchain.mkChain (H : HashFun) (d : Nat) (timestamp : String)
    (h : Mineable H 0 timestamp "Genesis Block" "0" d) : Blockchain :=
  { difficulty := d, chain := [create_genesis_block H d timestamp h] }

/-- `Blockchain.get_latest_block().header.hash`: hash of `chain[-1]`. -/
def lastHash (bc : Blockchain) : String :=
  (bc.chain.getLastD defaultBlock).header.hash

/-- `Blockchain.add_block`: build a block at index `len(chain)` linked to the
tail's hash with the chain's difficulty, mine it, append it. -/
def add_block (H : HashFun) (bc : Blockchain) (data timestamp : String)
    (h : Mineable H bc.chain.length timestamp data (lastHash bc) bc.difficulty) : Blockchain :=
  { bc with
    chain := bc.chain ++ [Block.make H bc.chain.length timestamp data (lastHash bc) bc.difficulty h] }

/-- Chains built by `Blockchain.__init__` followed by any finite sequence of
`add_block` calls (no tampering). -/
inductive Reachable (H : HashFun) : Blockchain → Prop
  | init (d : Nat) (timestamp : String) (h : Mineable H 0 timestamp "Genesis Block" "0" d) :
      Reachable H (Blockchain.mkChain H d timestamp h)
  | step (bc : Blockchain) (data timestamp : String)
      (h : Mineable H bc.chain.length timestamp data (lastHash bc) bc.difficulty) :
      Reachable H bc → Reachable H (add_block H bc data timestamp h)

/-- Outcome of the per-block validation step in `is_chain_valid`, mirroring
the three console reports (invalid hash / invalid previous hash / valid). -/
inductive CheckResult where
  | passed
  | invalidHash
  | invalidPrevHash
deriving DecidableEq, Repr

/-- One iteration of the `is_chain_valid` loop body: the stored-hash check
first, then (only if it passed) the previous-hash link check. -/
def blockCheck (H : HashFun) (previous current : Block) : CheckResult :=
  if current.header.hash ≠ calculate_hash H current then .invalidHash
  else if current.header.previous_hash ≠ previous.header.hash then .invalidPrevHash
  else .passed

/-- The per-block check at loop index `i` (blocks `i-1` and `i`). -/
def checkAt (H : HashFun) (bc : Blockchain) (i : Nat) : CheckResult :=
  blockCheck H (bc.chain.getD (i - 1) defaultBlock) (bc.chain.getD i defaultBlock)

/-- The sequence of per-block reports printed by the loop, one per index in
`range(1, len(chain))`. -/
def validationReport (H : HashFun) (bc : Blockchain) : List CheckResult :=
  (List.range' 1 (bc.chain.length - 1)).map (checkAt H bc)

/-- `Blockchain.is_chain_valid`: the `valid` flag starts true and each loop
iteration clears it when its block fails either check; no early return. -/
def is_chain_valid (H : HashFun) (bc : Blockchain) : Bool :=
  (List.range' 1 (bc.chain.length - 1)).foldl
    (fun valid i =>
      match checkAt H bc i with
      | .passed => valid
      | _ => false)
    true

/-- Result reported by `tamper_block`: the success print or the warning print
for a genesis / out-of-range target. -/
inductive TamperResult where
  | ok
  | invalidTarget
deriving DecidableEq, Repr

/-- `Blockchain.tamper_block`: when `0 < index < len(chain)` overwrite that
block's data with the fixed marker, touching nothing else; otherwise report
the warning and leave the chain unchanged.  The index is an integer, as in
the source. -/
def tamper_block (bc : Blockchain) (index : Int) : Blockchain × TamperResult :=
  if 0 < index ∧ index < (bc.chain.length : Int) then
    let b := bc.chain.getD index.toNat defaultBlock
    ({ bc with chain := bc.chain.set index.toNat { b with data := "Tampered Data" } }, .ok)
  else
    (bc, .invalidTarget)

/-- ASCII lower-casing of one character (the `str.lower()` of the source,
restricted to the ASCII range of this model). -/
def lowerChar (c : Char) : Char :=
  if 'A' ≤ c ∧ c ≤ 'Z' then Char.ofNat (c.toNat + 32) else c

def lowerList (l : List Char) : List Char := l.map lowerChar

/-- Python's substring containment `needle in hay` on character lists. -/
def hasSub (needle : List Char) : List Char → Bool
  | [] => needle.isEmpty
  | c :: t => needle.isPrefixOf (c :: t) || hasSub needle t

/-- `keyword.lower() in str(block.data).lower()`. -/
def matchesKeyword (keyword : String) (b : Block) : Bool :=
  hasSub (lowerList keyword.toList) (lowerList b.data.toList)

/-- `Blockchain.search_block`: scan every block in order and report each
match as its index and data. -/
def search_block (bc : Blockchain) (keyword : String) : List (Nat × String) :=
  bc.chain.foldl
    (fun acc b => if matchesKeyword keyword b then acc ++ [(b.header.index, b.data)] else acc)
    []

/-! ### Basic facts about difficulty targets and mining -/

/-- The empty character list is a prefix of every list. -/
theorem nil_isPrefixOf (l : List Char) : ([] : List Char).isPrefixOf l = true := by
  cases l <;> rfl

/-- Difficulty 0 imposes no constraint on a hash. -/
theorem hashMeetsDifficulty_zero (s : String) : hashMeetsDifficulty s 0 = true := by
  simp [hashMeetsDifficulty, nil_isPrefixOf]

/-- At difficulty 0 the mining search always terminates. -/
theorem mineable_zero (H : HashFun) (i : Nat) (ts data prev : String) :
    Mineable H i ts data prev 0 := ⟨0, hashMeetsDifficulty_zero _⟩

/-- The identity digest function, used to instantiate the abstract hasher on
concrete examples. -/
def hId : HashFun := fun s => s

theorem hId_injective : Function.Injective hId := fun _ _ h => h

theorem find_zero_of_pred_zero {p : Nat → Bool} (h : ∃ n, p n = true) (hp : p 0 = true) :
    Nat.find h = 0 := (Nat.find_eq_zero h).mpr hp

/-- At difficulty 0 mining stops immediately at nonce 0, so the built block
is fully explicit. -/
theorem make_zero (H : HashFun) (i : Nat) (ts data prev : String)
    (h : Mineable H i ts data prev 0) :
    Block.make H i ts data prev 0 h =
      ⟨⟨i, ts, prev, 0, 0, H (hashContent i ts data prev 0)⟩, data⟩ := by
  simp [Block.make, mine_block, find_zero_of_pred_zero h (hashMeetsDifficulty_zero _)]

/-- The hash stored by block construction is the hash the block's current
fields recompute to: mining seals the block consistently. -/
theorem make_hash_consistent (H : HashFun) (i : Nat) (ts data prev : String) (d : Nat)
    (h : Mineable H i ts data prev d) :
    (Block.make H i ts data prev d h).header.hash =
      calculate_hash H (Block.make H i ts data prev d h) := rfl

/-! ### Characterization of the validation loop -/

/-- Unrolling the `valid` flag of the validation loop: the fold is the
conjunction of the accumulator with every per-index check outcome. -/
theorem foldl_check (H : HashFun) (bc : Blockchain) (l : List Nat) (acc : Bool) :
    l.foldl (fun valid i => match checkAt H bc i with | .passed => valid | _ => false) acc
      = (acc && l.all (fun i => checkAt H bc i == CheckResult.passed)) := by
  induction l generalizing acc with
  | nil => simp
  | cons a t ih =>
    simp only [List.foldl_cons, List.all_cons]
    cases h : checkAt H bc a <;> simp [h, ih]

/-- The validation loop result is the conjunction of all per-block checks. -/
theorem is_chain_valid_eq_all (H : HashFun) (bc : Blockchain) :
    is_chain_valid H bc
      = (List.range' 1 (bc.chain.length - 1)).all (fun i => checkAt H bc i == CheckResult.passed) := by
  simp [is_chain_valid, foldl_check]

/-- The chain is reported valid iff every index from 1 to the end passes its
per-block check. -/
theorem is_chain_valid_iff (H : HashFun) (bc : Blockchain) :
    is_chain_valid H bc = true ↔
      ∀ i, 1 ≤ i → i < bc.chain.length → checkAt H bc i = CheckResult.passed := by
  rw [is_chain_valid_eq_all]
  simp only [List.all_eq_true, List.mem_range'_1, beq_iff_eq, and_imp]
  constructor
  · intro h i h1 h2
    exact h i h1 (by omega)
  · intro h i h1 h2
    exact h i h1 (by omega)

/-- Unfolding of the per-block check into the two stored-field comparisons. -/
theorem checkAt_passed_iff (H : HashFun) (bc : Blockchain) (i : Nat) :
    checkAt H bc i = CheckResult.passed ↔
      ((bc.chain.getD i defaultBlock).header.hash
          = calculate_hash H (bc.chain.getD i defaultBlock) ∧
        (bc.chain.getD i defaultBlock).header.previous_hash
          = (bc.chain.getD (i - 1) defaultBlock).header.hash) := by
  simp only [checkAt, blockCheck]
  split_ifs with h1 h2 <;> simp_all

/-! ### Invariants of untampered chains -/

theorem getD_append_left_blocks (l : List Block) (b : Block) (i : Nat) (h : i < l.length) :
    (l ++ [b]).getD i defaultBlock = l.getD i defaultBlock := by
  simp [List.getD_eq_getElem?_getD, List.getElem?_append_left h]

theorem getD_append_length (l : List Block) (b : Block) :
    (l ++ [b]).getD l.length defaultBlock = b := by
  simp [List.getD_eq_getElem?_getD, List.getElem?_concat_length]

theorem getLastD_eq_getD (l : List Block) :
    l.getLastD defaultBlock = l.getD (l.length - 1) defaultBlock := by
  simp [List.getLastD_eq_getLast?, List.getLast?_eq_getElem?, List.getD_eq_getElem?_getD]

/-- The structural invariants maintained by construction and `add_block`:
nonempty chain, indices equal to positions, stored hashes consistent with the
current fields, previous-hash linkage, the chain difficulty copied into every
header, and the fixed genesis fields. -/
def goodChain (H : HashFun) (bc : Blockchain) : Prop :=
  bc.chain ≠ [] ∧
  (∀ i, i < bc.chain.length → (bc.chain.getD i defaultBlock).header.index = i) ∧
  (∀ i, i < bc.chain.length →
    (bc.chain.getD i defaultBlock).header.hash = calculate_hash H (bc.chain.getD i defaultBlock)) ∧
  (∀ i, 1 ≤ i → i < bc.chain.length →
    (bc.chain.getD i defaultBlock).header.previous_hash
      = (bc.chain.getD (i - 1) defaultBlock).header.hash) ∧
  (∀ i, i < bc.chain.length → (bc.chain.getD i defaultBlock).header.difficulty = bc.difficulty) ∧
  (bc.chain.getD 0 defaultBlock).header.index = 0 ∧
  (bc.chain.getD 0 defaultBlock).data = "Genesis Block" ∧
  (bc.chain.getD 0 defaultBlock).header.previous_hash = "0"

theorem reachable_good (H : HashFun) (bc : Blockchain) (hr : Reachable H bc) :
    goodChain H bc := by
  induction hr with
  | init d ts hm =>
    refine ⟨by simp [Blockchain.mkChain], ?_, ?_, ?_, ?_, rfl, rfl, rfl⟩
    · intro i hi
      have h0 : i = 0 := by simp [Blockchain.mkChain] at hi; omega
      subst h0; rfl
    · intro i hi
      have h0 : i = 0 := by simp [Blockchain.mkChain] at hi; omega
      subst h0; rfl
    · intro i h1 hi
      simp [Blockchain.mkChain] at hi; omega
    · intro i hi
      have h0 : i = 0 := by simp [Blockchain.mkChain] at hi; omega
      subst h0; rfl
  | step bc data ts hm hr ih =>
    obtain ⟨hne, hidx, hhash, hlink, hdiff, hg0, hg1, hg2⟩ := ih
    have hLpos : 0 < bc.chain.length := List.length_pos.mpr hne
    have hlen : (add_block H bc data ts hm).chain.length = bc.chain.length + 1 := by
      simp [add_block]
    have hleft : ∀ i, i < bc.chain.length →
        (add_block H bc data ts hm).chain.getD i defaultBlock = bc.chain.getD i defaultBlock := by
      intro i hi
      simp only [add_block]
      exact getD_append_left_blocks _ _ _ hi
    have hlast :
        (add_block H bc data ts hm).chain.getD bc.chain.length defaultBlock
          = Block.make H bc.chain.length ts data (lastHash bc) bc.difficulty hm := by
      simp only [add_block]
      exact getD_append_length _ _
    refine ⟨by simp [add_block], ?_, ?_, ?_, ?_, ?_, ?_, ?_⟩
    · intro i hi
      rw [hlen] at hi
      rcases Nat.lt_or_ge i bc.chain.length with h | h
      · rw [hleft i h]; exact hidx i h
      · have he : i = bc.chain.length := by omega
        subst he; rw [hlast]; rfl
    · intro i hi
      rw [hlen] at hi
      rcases Nat.lt_or_ge i bc.chain.length with h | h
      · rw [hleft i h]; exact hhash i h
      · have he : i = bc.chain.length := by omega
        subst he; rw [hlast]; rfl
    · intro i h1 hi
      rw [hlen] at hi
      rcases Nat.lt_or_ge i bc.chain.length with h | h
      · rw [hleft i h, hleft (i - 1) (by omega)]
        exact hlink i h1 h
      · have he : i = bc.chain.length := by omega
        subst he
        rw [hlast, hleft (bc.chain.length - 1) (by omega)]
        show (bc.chain.getLastD defaultBlock).header.hash = _
        rw [getLastD_eq_getD]
    · intro i hi
      rw [hlen] at hi
      have hd : (add_block H bc data ts hm).difficulty = bc.difficulty := rfl
      rcases Nat.lt_or_ge i bc.chain.length with h | h
      · rw [hleft i h, hd]; exact hdiff i h
      · have he : i = bc.chain.length := by omega
        subst he; rw [hlast, hd]; rfl
    · rw [hleft 0 hLpos]; exact hg0
    · rw [hleft 0 hLpos]; exact hg1
    · rw [hleft 0 hLpos]; exact hg2

theorem all_map_comp (l : List Nat) (f : Nat → CheckResult) (p : CheckResult → Bool) :
    (l.map f).all p = l.all (fun i => p (f i)) := by
  induction l with
  | nil => rfl
  | cons a t ih => simp [ih]

/-! ### Claim theorems -/

/-- C1: `is_chain_valid` returns true iff every block index `i` from 1 to
`len(blocks) - 1` passes both the stored-hash recomputation check and the
previous-hash link check; the loop visits and reports every such block (one
report entry per index, no short-circuit) and the returned boolean is the
conjunction of all per-block checks. -/
theorem C1_is_chain_valid_characterization (H : HashFun) (bc : Blockchain) :
    (is_chain_valid H bc = true ↔
      ∀ i, 1 ≤ i → i < bc.chain.length →
        ((bc.chain.getD i defaultBlock).header.hash
            = calculate_hash H (bc.chain.getD i defaultBlock) ∧
          (bc.chain.getD i defaultBlock).header.previous_hash
            = (bc.chain.getD (i - 1) defaultBlock).header.hash)) ∧
    (validationReport H bc).length = bc.chain.length - 1 ∧
    is_chain_valid H bc
      = (validationReport H bc).all (fun r => r == CheckResult.passed) := by
  refine ⟨?_, ?_, ?_⟩
  · rw [is_chain_valid_iff]
    constructor
    · intro h i h1 h2
      exact (checkAt_passed_iff H bc i).mp (h i h1 h2)
    · intro h i h1 h2
      exact (checkAt_passed_iff H bc i).mpr (h i h1 h2)
  · simp [validationReport]
  · rw [is_chain_valid_eq_all, validationReport]
    exact (all_map_comp (List.range' 1 (bc.chain.length - 1)) (checkAt H bc)
      (fun r => r == CheckResult.passed)).symm

def bcW1 : Blockchain :=
  Blockchain.mkChain hId 0 "tg" (mineable_zero hId 0 "tg" "Genesis Block" "0")

theorem C1_witness :
    is_chain_valid hId bcW1 = (validationReport hId bcW1).all (fun r => r == CheckResult.passed) :=
  (C1_is_chain_valid_characterization hId bcW1).2.2

/-- C2: every chain built by constructing a `Blockchain` (any difficulty)
followed by any finite sequence of `add_block` calls, with no tampering,
validates successfully. -/
theorem C2_reachable_chain_is_valid (H : HashFun) (bc : Blockchain)
    (hr : Reachable H bc) : is_chain_valid H bc = true := by
  obtain ⟨-, -, hhash, hlink, -, -, -, -⟩ := reachable_good H bc hr
  rw [is_chain_valid_iff]
  intro i h1 h2
  exact (checkAt_passed_iff H bc i).mpr ⟨hhash i h2, hlink i h1 h2⟩

def bcW2 : Blockchain :=
  add_block hId
    (Blockchain.mkChain hId 0 "tg" (mineable_zero hId 0 "tg" "Genesis Block" "0"))
    "Alice pays Bob 5" "t1" (mineable_zero hId _ _ _ _)

theorem C2_witness : is_chain_valid hId bcW2 = true :=
  C2_reachable_chain_is_valid hId bcW2
    (Reachable.step _ "Alice pays Bob 5" "t1" (mineable_zero hId _ _ _ _)
      (Reachable.init 0 "tg" (mineable_zero hId 0 "tg" "Genesis Block" "0")))

/-- C3: whenever the mining search returns, the returned hash meets the
difficulty target (at least `d` leading zero characters) and equals the hash
of the draft fields at the returned final nonce; no smaller nonce wins, and
for difficulty 0 the search succeeds immediately at nonce 0. -/
theorem C3_mine_block_correct (H : HashFun) (i : Nat) (ts data prev : String) (d : Nat)
    (h : Mineable H i ts data prev d) :
    hashMeetsDifficulty (mine_block H i ts data prev d h).2 d = true ∧
    (mine_block H i ts data prev d h).2
      = H (hashContent i ts data prev (mine_block H i ts data prev d h).1) ∧
    (∀ m, m < (mine_block H i ts data prev d h).1 →
      minePredB H i ts data prev d m = false) ∧
    (d = 0 → (mine_block H i ts data prev d h).1 = 0) := by
  refine ⟨Nat.find_spec h, rfl, ?_, ?_⟩
  · intro m hm
    simpa using Nat.find_min h hm
  · intro hd
    subst hd
    exact find_zero_of_pred_zero h (hashMeetsDifficulty_zero _)

def mW3 : Mineable hId 5 "t" "payload" "ph" 0 := mineable_zero hId 5 "t" "payload" "ph"

theorem C3_witness :
    hashMeetsDifficulty (mine_block hId 5 "t" "payload" "ph" 0 mW3).2 0 = true :=
  (C3_mine_block_correct hId 5 "t" "payload" "ph" 0 mW3).1

/-- C10: when a block's stored hash differs from its recomputed hash, the
per-block check reports the self-hash failure and never the previous-hash
failure, regardless of whether the link also mismatches: at most one check is
flagged per block, with the self-hash check taking precedence. -/
theorem C10_self_hash_check_precedence (H : HashFun) (previous current : Block)
    (h : current.header.hash ≠ calculate_hash H current) :
    blockCheck H previous current = CheckResult.invalidHash ∧
    blockCheck H previous current ≠ CheckResult.invalidPrevHash := by
  rw [blockCheck, if_pos h]
  exact ⟨rfl, by simp⟩

def blkPrev10 : Block := ⟨⟨0, "t0", "0", 0, 0, "A"⟩, "x"⟩

def blkCur10 : Block := ⟨⟨1, "t1", "B", 0, 0, "C"⟩, "y"⟩

theorem C10_witness : blockCheck hId blkPrev10 blkCur10 = CheckResult.invalidHash :=
  (C10_self_hash_check_precedence hId blkPrev10 blkCur10 (by decide)).1

/-! ### Tampering -/

theorem getD_set_ne (l : List Block) (i j : Nat) (b : Block) (h : i ≠ j) :
    (l.set i b).getD j defaultBlock = l.getD j defaultBlock := by
  simp [List.getD_eq_getElem?_getD, List.getElem?_set_ne h]

theorem getD_set_self (l : List Block) (i : Nat) (b : Block) (h : i < l.length) :
    (l.set i b).getD i defaultBlock = b := by
  simp [List.getD_eq_getElem?_getD, List.getElem?_set_self h]

/-- Result of `tamper_block` on an in-range, non-genesis index. -/
theorem tamper_block_in_range (bc : Blockchain) (i : Nat) (h0 : 0 < i)
    (hl : i < bc.chain.length) :
    tamper_block bc (i : Int)
      = (⟨bc.difficulty,
           bc.chain.set i ⟨(bc.chain.getD i defaultBlock).header, "Tampered Data"⟩⟩,
          TamperResult.ok) := by
  rw [tamper_block, if_pos ⟨by exact_mod_cast h0, by exact_mod_cast hl⟩]
  simp

/-- C6: tampering at an index that is genesis or out of range reports the
failure to the caller and leaves the chain completely unchanged. -/
theorem C6_tamper_invalid_target_unchanged (bc : Blockchain) (index : Int)
    (h : index ≤ 0 ∨ (bc.chain.length : Int) ≤ index) :
    tamper_block bc index = (bc, TamperResult.invalidTarget) := by
  rw [tamper_block, if_neg]
  rcases h with h | h <;> intro hc <;> omega

def bcW6 : Blockchain := ⟨2, [defaultBlock, defaultBlock]⟩

theorem C6_witness : tamper_block bcW6 0 = (bcW6, TamperResult.invalidTarget) :=
  C6_tamper_invalid_target_unchanged bcW6 0 (Or.inl le_rfl)

/-- C7: tampering at a valid index overwrites exactly that block's data with
the fixed marker; its header (hash, nonce, index, timestamp, previous_hash,
difficulty) is untouched, every other block is untouched, and the chain
length and chain difficulty are unchanged. -/
theorem C7_tamper_frame (bc : Blockchain) (i : Nat) (h0 : 0 < i)
    (hl : i < bc.chain.length) :
    (tamper_block bc (i : Int)).2 = TamperResult.ok ∧
    (tamper_block bc (i : Int)).1.difficulty = bc.difficulty ∧
    (tamper_block bc (i : Int)).1.chain.length = bc.chain.length ∧
    (∀ j, j ≠ i →
      (tamper_block bc (i : Int)).1.chain.getD j defaultBlock
        = bc.chain.getD j defaultBlock) ∧
    ((tamper_block bc (i : Int)).1.chain.getD i defaultBlock).header
      = (bc.chain.getD i defaultBlock).header ∧
    ((tamper_block bc (i : Int)).1.chain.getD i defaultBlock).data = "Tampered Data" := by
  rw [tamper_block_in_range bc i h0 hl]
  refine ⟨rfl, rfl, by simp, ?_, ?_, ?_⟩
  · intro j hj
    exact getD_set_ne _ _ _ _ (fun he => hj he.symm)
  · rw [getD_set_self _ _ _ hl]
  · rw [getD_set_self _ _ _ hl]

def bcW7 : Blockchain := ⟨2, [defaultBlock, ⟨⟨1, "t1", "p", 3, 2, "h1"⟩, "payload"⟩]⟩

theorem C7_witness :
    ((tamper_block bcW7 (1 : Nat)).1.chain.getD 1 defaultBlock).data = "Tampered Data" :=
  (C7_tamper_frame bcW7 1 (by decide) (by decide)).2.2.2.2.2

/-- C4: construction and `add_block` preserve the structural invariants: the
genesis block has index 0, data "Genesis Block" and previous_hash "0"; a
block appended by `add_block` receives index `len(chain)`, the current
tail's stored hash as previous_hash, and the chain's difficulty; hence in
every untampered reachable chain `blocks[i].header.index = i` for all `i`
and `blocks[i].header.previous_hash = blocks[i-1].header.hash` for `i > 0`. -/
theorem C4_structural_invariants (H : HashFun) (bc : Blockchain) (hr : Reachable H bc) :
    ((bc.chain.getD 0 defaultBlock).header.index = 0 ∧
      (bc.chain.getD 0 defaultBlock).data = "Genesis Block" ∧
      (bc.chain.getD 0 defaultBlock).header.previous_hash = "0") ∧
    (∀ i, i < bc.chain.length → (bc.chain.getD i defaultBlock).header.index = i) ∧
    (∀ i, 1 ≤ i → i < bc.chain.length →
      (bc.chain.getD i defaultBlock).header.previous_hash
        = (bc.chain.getD (i - 1) defaultBlock).header.hash) ∧
    (∀ i, i < bc.chain.length →
      (bc.chain.getD i defaultBlock).header.difficulty = bc.difficulty) ∧
    (∀ data ts hm,
      (add_block H bc data ts hm).chain.length = bc.chain.length + 1 ∧
      ((add_block H bc data ts hm).chain.getD bc.chain.length defaultBlock).header.index
          = bc.chain.length ∧
      ((add_block H bc data ts hm).chain.getD bc.chain.length defaultBlock).header.previous_hash
          = lastHash bc ∧
      ((add_block H bc data ts hm).chain.getD bc.chain.length defaultBlock).header.difficulty
          = bc.difficulty) := by
  obtain ⟨hne, hidx, -, hlink, hdiff, hg0, hg1, hg2⟩ := reachable_good H bc hr
  refine ⟨⟨hg0, hg1, hg2⟩, hidx, hlink, hdiff, ?_⟩
  intro data ts hm
  have hlast : (add_block H bc data ts hm).chain.getD bc.chain.length defaultBlock
      = Block.make H bc.chain.length ts data (lastHash bc) bc.difficulty hm := by
    simp only [add_block]
    exact getD_append_length _ _
  refine ⟨by simp [add_block], ?_, ?_, ?_⟩ <;> rw [hlast] <;> rfl

def bcW4 : Blockchain :=
  Blockchain.mkChain hId 0 "tg" (mineable_zero hId 0 "tg" "Genesis Block" "0")

theorem C4_witness :
    (bcW4.chain.getD 0 defaultBlock).header.index = 0 ∧
    (bcW4.chain.getD 0 defaultBlock).data = "Genesis Block" ∧
    (bcW4.chain.getD 0 defaultBlock).header.previous_hash = "0" :=
  (C4_structural_invariants hId bcW4
    (Reachable.init 0 "tg" (mineable_zero hId 0 "tg" "Genesis Block" "0"))).1

/-! ### Search -/

theorem search_foldl_acc (kw : String) (l : List Block) (acc : List (Nat × String)) :
    l.foldl (fun a b => if matchesKeyword kw b then a ++ [(b.header.index, b.data)] else a) acc
      = acc ++ (l.filter (matchesKeyword kw)).map (fun b => (b.header.index, b.data)) := by
  induction l generalizing acc with
  | nil => simp
  | cons b t ih =>
    cases h : matchesKeyword kw b <;> simp [List.filter_cons, h, ih]

/-- C8: `search_block` returns, in chain order, the index and data of every
block whose lower-cased data contains the lower-cased keyword — all matches,
not just the first; and on a freshly constructed chain the keyword
"genesis" matches exactly one block, block 0. -/
theorem C8_search_block_correct :
    (∀ bc kw, search_block bc kw
        = (bc.chain.filter (matchesKeyword kw)).map (fun b => (b.header.index, b.data))) ∧
    (∀ (H : HashFun) (d : Nat) (ts : String) (hm : Mineable H 0 ts "Genesis Block" "0" d),
      search_block (Blockchain.mkChain H d ts hm) "genesis" = [(0, "Genesis Block")]) := by
  constructor
  · intro bc kw
    simpa using search_foldl_acc kw bc.chain []
  · intro H d ts hm
    have h1 := search_foldl_acc "genesis" (Blockchain.mkChain H d ts hm).chain []
    have hmatch : matchesKeyword "genesis" (create_genesis_block H d ts hm) = true := rfl
    show (Blockchain.mkChain H d ts hm).chain.foldl
        (fun a b => if matchesKeyword "genesis" b then a ++ [(b.header.index, b.data)] else a) []
      = [(0, "Genesis Block")]
    rw [h1]
    simp only [Blockchain.mkChain, List.filter_cons, hmatch, if_true, List.nil_append,
      List.filter_nil, List.map_cons, List.map_nil]
    exact rfl

def mW8 : Mineable hId 0 "tg" "Genesis Block" "0" 0 :=
  mineable_zero hId 0 "tg" "Genesis Block" "0"

theorem C8_witness :
    search_block (Blockchain.mkChain hId 0 "tg" mW8) "genesis" = [(0, "Genesis Block")] :=
  C8_search_block_correct.2 hId 0 "tg" mW8

/-! ### Tampering breaks validation -/

/-- Changing only the data field changes the hashed content string: the
surrounding fields contribute equal fixed parts around the data slot. -/
theorem hashContent_ne_of_data_ne (i : Nat) (ts prev : String) (n : Nat)
    (d1 d2 : String) (hne : d1 ≠ d2) :
    hashContent i ts d1 prev n ≠ hashContent i ts d2 prev n := by
  intro h
  apply hne
  have hd := congrArg String.data h
  simp only [hashContent, String.data_append, List.append_assoc] at hd
  have h1 := List.append_cancel_left hd
  have h2 := List.append_cancel_left h1
  have h3 := List.append_cancel_right h2
  exact String.ext h3

/-- The per-block check reads the previous block only through its stored
hash. -/
theorem blockCheck_prev_hash_only (H : HashFun) (p q current : Block)
    (h : p.header.hash = q.header.hash) :
    blockCheck H p current = blockCheck H q current := by
  simp [blockCheck, h]

/-- Per-block checks on the chain obtained from a consistent chain by
overwriting block `i`'s data with the tamper marker: exactly block `i` fails,
with the self-hash check, every other checked block passes. -/
theorem checkAt_set_tampered (H : HashFun) (hInj : Function.Injective H) (bc : Blockchain)
    (i : Nat) (h0 : 0 < i) (hl : i < bc.chain.length)
    (hdata : (bc.chain.getD i defaultBlock).data ≠ "Tampered Data")
    (hhash : ∀ k, k < bc.chain.length →
      (bc.chain.getD k defaultBlock).header.hash
        = calculate_hash H (bc.chain.getD k defaultBlock))
    (hlink : ∀ k, 1 ≤ k → k < bc.chain.length →
      (bc.chain.getD k defaultBlock).header.previous_hash
        = (bc.chain.getD (k - 1) defaultBlock).header.hash)
    (j : Nat) (hj1 : 1 ≤ j) (hj2 : j < bc.chain.length) :
    checkAt H
        ⟨bc.difficulty,
          bc.chain.set i ⟨(bc.chain.getD i defaultBlock).header, "Tampered Data"⟩⟩ j
      = if j = i then CheckResult.invalidHash else CheckResult.passed := by
  have hpass : ∀ k, 1 ≤ k → k < bc.chain.length →
      blockCheck H (bc.chain.getD (k - 1) defaultBlock) (bc.chain.getD k defaultBlock)
        = CheckResult.passed := by
    intro k hk1 hk2
    exact (checkAt_passed_iff H bc k).mpr ⟨hhash k hk2, hlink k hk1 hk2⟩
  have hTbad : (⟨(bc.chain.getD i defaultBlock).header, "Tampered Data"⟩ : Block).header.hash
      ≠ calculate_hash H ⟨(bc.chain.getD i defaultBlock).header, "Tampered Data"⟩ := by
    intro he
    have he2 : calculate_hash H (bc.chain.getD i defaultBlock)
        = calculate_hash H ⟨(bc.chain.getD i defaultBlock).header, "Tampered Data"⟩ := by
      rw [← hhash i hl]
      exact he
    simp only [calculate_hash] at he2
    exact hashContent_ne_of_data_ne _ _ _ _ _ _ hdata (hInj he2)
  simp only [checkAt]
  rcases Decidable.em (j = i) with he | hne
  · subst he
    rw [if_pos rfl,
      getD_set_self _ _ _ hl,
      getD_set_ne _ _ _ _ (by omega),
      blockCheck, if_pos hTbad]
  · rw [if_neg hne,
      getD_set_ne _ _ _ _ (fun h => hne h.symm)]
    rcases Decidable.em (j - 1 = i) with hpe | hpne
    · rw [hpe, getD_set_self _ _ _ hl,
        blockCheck_prev_hash_only H
          ⟨(bc.chain.getD i defaultBlock).header, "Tampered Data"⟩
          (bc.chain.getD i defaultBlock) (bc.chain.getD j defaultBlock) rfl,
        ← hpe]
      exact hpass j hj1 hj2
    · rw [getD_set_ne _ _ _ _ (fun h => hpne h.symm)]
      exact hpass j hj1 hj2

/-- C5 (amended): tampering a non-genesis in-range block of an untampered
chain whose data is not already the tamper marker, with a collision-free
hasher, makes validation fail; exactly block `i` is flagged, by the
self-hash check, and every other checked block — block `i+1` in particular,
whose previous-hash link still matches block `i`'s unchanged stored hash —
passes. -/
theorem C5_tamper_breaks_validation (H : HashFun) (hInj : Function.Injective H)
    (bc : Blockchain) (i : Nat) (hr : Reachable H bc) (h0 : 0 < i)
    (hl : i < bc.chain.length)
    (hdata : (bc.chain.getD i defaultBlock).data ≠ "Tampered Data") :
    is_chain_valid H (tamper_block bc (i : Int)).1 = false ∧
    (∀ j, 1 ≤ j → j < (tamper_block bc (i : Int)).1.chain.length →
      checkAt H (tamper_block bc (i : Int)).1 j
        = if j = i then CheckResult.invalidHash else CheckResult.passed) := by
  obtain ⟨-, -, hhash, hlink, -, -, -, -⟩ := reachable_good H bc hr
  rw [tamper_block_in_range bc i h0 hl]
  have hlen : (⟨bc.difficulty,
      bc.chain.set i ⟨(bc.chain.getD i defaultBlock).header, "Tampered Data"⟩⟩ :
        Blockchain).chain.length = bc.chain.length := by
    simp
  have hall : ∀ j, 1 ≤ j → j < bc.chain.length →
      checkAt H
          ⟨bc.difficulty,
            bc.chain.set i ⟨(bc.chain.getD i defaultBlock).header, "Tampered Data"⟩⟩ j
        = if j = i then CheckResult.invalidHash else CheckResult.passed :=
    checkAt_set_tampered H hInj bc i h0 hl hdata hhash hlink
  constructor
  · cases hv : is_chain_valid H
        ⟨bc.difficulty, bc.chain.set i ⟨(bc.chain.getD i defaultBlock).header, "Tampered Data"⟩⟩
    · rfl
    · exfalso
      have hp := (is_chain_valid_iff H _).mp hv i h0 (by rw [hlen]; exact hl)
      rw [hall i h0 hl, if_pos rfl] at hp
      exact absurd hp (by simp)
  · intro j hj1 hj2
    rw [hlen] at hj2
    exact hall j hj1 hj2

def bcW5 : Blockchain :=
  add_block hId
    (Blockchain.mkChain hId 0 "tg" (mineable_zero hId 0 "tg" "Genesis Block" "0"))
    "Alice pays Bob 5" "t1" (mineable_zero hId _ _ _ _)

theorem C5_witness : is_chain_valid hId (tamper_block bcW5 ((1 : Nat) : Int)).1 = false :=
  (C5_tamper_breaks_validation hId hId_injective bcW5 1
    (Reachable.step _ "Alice pays Bob 5" "t1" (mineable_zero hId _ _ _ _)
      (Reachable.init 0 "tg" (mineable_zero hId 0 "tg" "Genesis Block" "0")))
    (by decide) (by decide) (by decide)).1

/-- A reachable two-block chain whose second block's payload happens to be
the tamper marker itself. -/
def bcC5L : Blockchain :=
  ⟨0, [⟨⟨0, "tg", "0", 0, 0, "0tgGenesis Block00"⟩, "Genesis Block"⟩,
       ⟨⟨1, "t1", "0tgGenesis Block00", 0, 0, "1t1Tampered Data0tgGenesis Block000"⟩,
         "Tampered Data"⟩]⟩

theorem heq5 :
    add_block hId
      (Blockchain.mkChain hId 0 "tg" (mineable_zero hId 0 "tg" "Genesis Block" "0"))
      "Tampered Data" "t1" (mineable_zero hId _ _ _ _) = bcC5L := by
  simp only [add_block, Blockchain.mkChain, create_genesis_block, make_zero]
  rfl

/-- C5 as stated is false: on the untampered reachable chain `bcC5L`, whose
block 1 payload is already the marker value, `tamper_block 1` rewrites the
data to the identical string, so a subsequent validation still returns
true rather than false. -/
theorem C5_counterexample :
    Reachable hId bcC5L ∧ (0 < 1 ∧ 1 < bcC5L.chain.length) ∧
    is_chain_valid hId (tamper_block bcC5L ((1 : Nat) : Int)).1 = true := by
  refine ⟨heq5 ▸ Reachable.step _ "Tampered Data" "t1" (mineable_zero hId _ _ _ _)
      (Reachable.init 0 "tg" (mineable_zero hId 0 "tg" "Genesis Block" "0")),
    by decide, by decide⟩

/-! ### Genesis is not re-verified -/

/-- C9 (amended): validation recomputes and compares the stored hash for
every block index from 1 up — but not for the genesis block — so any
non-genesis block whose data is modified without recomputing its hash is
flagged with a hash mismatch and the chain reports invalid. -/
theorem C9_nongenesis_hash_mismatch_flagged (H : HashFun) (bc : Blockchain) (i : Nat)
    (h1 : 1 ≤ i) (h2 : i < bc.chain.length)
    (hbad : (bc.chain.getD i defaultBlock).header.hash
      ≠ calculate_hash H (bc.chain.getD i defaultBlock)) :
    checkAt H bc i = CheckResult.invalidHash ∧ is_chain_valid H bc = false := by
  have hc : checkAt H bc i = CheckResult.invalidHash := by
    rw [checkAt, blockCheck, if_pos hbad]
  refine ⟨hc, ?_⟩
  cases hv : is_chain_valid H bc
  · rfl
  · exfalso
    have hp := (is_chain_valid_iff H bc).mp hv i h1 h2
    rw [hc] at hp
    exact absurd hp (by simp)

/-- A chain whose second (non-genesis) block stores a stale hash. -/
def bcW9 : Blockchain :=
  ⟨0, [⟨⟨0, "tg", "0", 0, 0, "0tgGenesis Block00"⟩, "Genesis Block"⟩,
       ⟨⟨1, "t1", "0tgGenesis Block00", 0, 0, "bogus"⟩, "data one"⟩]⟩

theorem C9_witness :
    checkAt hId bcW9 1 = CheckResult.invalidHash ∧ is_chain_valid hId bcW9 = false :=
  C9_nongenesis_hash_mismatch_flagged hId bcW9 1 (by decide) (by decide) (by decide)

/-- An honestly linked chain whose genesis data was modified after mining,
leaving the stored genesis hash stale. -/
def bcC9 : Blockchain :=
  ⟨0, [⟨⟨0, "tg", "0", 0, 0, "0tgGenesis Block00"⟩, "evil"⟩,
       ⟨⟨1, "t1", "0tgGenesis Block00", 0, 0, "1t1data one0tgGenesis Block000"⟩, "data one"⟩]⟩

/-- C9 as stated is false: the validator never recomputes the genesis hash.
In `bcC9` the genesis block's data was modified without recomputing its
stored hash (the stored and recomputed hashes differ), yet validation
returns true and the per-block report flags nothing. -/
theorem C9_counterexample :
    (bcC9.chain.getD 0 defaultBlock).header.hash
        ≠ calculate_hash hId (bcC9.chain.getD 0 defaultBlock) ∧
    is_chain_valid hId bcC9 = true ∧
    validationReport hId bcC9 = [CheckResult.passed] := by
  decide
